import Mathlib

/-!
Verification of the pybinding core (tight-binding model construction).

Shallow embedding of the C++ sources:
  * `cppcore/src/system/Foundation.cpp` — site enumeration, neighbor
    counting, edge trimming, finalization (compaction) and sublattice ids;
  * `src/system/SystemModifiers.cpp`, `src/hamiltonian/HamiltonianModifiers.cpp`
    — identity-deduplicated modifier lists;
  * `include/support/uref.hpp` — type-erased dense views and `uref_cast`;
  * `cppcore/tests/test_system.cpp` — behaviour pinned by the unit tests
    for code whose implementation lies outside the excerpt
    (`nonzeros_per_row`, `Lattice::add_registered_hopping`, generator
    hopping storage).

Machine integers are modelled as `Int`/`Nat`; fallible operations return
`Except`/`Option`; the state mutated by trimming is passed explicitly.
-/

namespace Pybinding

/-- `Index3D`: a 3-vector of integers (Eigen `Array3i`), used for unit-cell
indices and relative hopping offsets. -/
structure Index3D where
  x : Int
  y : Int
  z : Int
deriving DecidableEq, Repr

/-- Componentwise addition of `Index3D` (Eigen array `+`). -/
def Index3D.add (a b : Index3D) : Index3D := ⟨a.x + b.x, a.y + b.y, a.z + b.z⟩

/-- Componentwise negation of `Index3D` (Eigen array unary `-`). -/
def Index3D.neg (a : Index3D) : Index3D := ⟨-a.x, -a.y, -a.z⟩

/-- The zero index, `Index3D::Zero()`. -/
def Index3D.zero : Index3D := ⟨0, 0, 0⟩

/-! ## Foundation::finalize (Foundation.cpp lines 156-169)

```cpp
hamiltonian_indices = ArrayX<int32_t>::Constant(num_sites, -1);
auto num_valid_sites = 0;
for (int i = 0; i < num_sites; ++i) {
    if (is_valid[i])
        hamiltonian_indices[i] = num_valid_sites++;
}
return num_valid_sites;
```

The loop is embedded as a single scan that carries the running counter
`num_valid_sites`; every element starts at `-1` and is overwritten by the
counter exactly when the site is valid. -/

/-- One pass of the `finalize` loop: given the remaining `is_valid` entries
and the current value of `num_valid_sites`, produce the corresponding
`hamiltonian_indices` suffix and the final counter. -/
def finalize_scan : List Bool → Nat → List Int × Nat
  | [], c => ([], c)
  | b :: rest, c =>
    if b then
      let r := finalize_scan rest (c + 1)
      (((c : Int)) :: r.1, r.2)
    else
      let r := finalize_scan rest c
      ((-1) :: r.1, r.2)

/-- `Foundation::finalize`: returns the `hamiltonian_indices` array and the
number of valid sites (the C++ return value). -/
def finalize (is_valid : List Bool) : List Int × Nat :=
  finalize_scan is_valid 0

/-- The values of `hamiltonian_indices` restricted to the valid sites, in
ascending raw site index order. -/
def validEntries (is_valid : List Bool) (h : List Int) : List Int :=
  (h.zip is_valid).filterMap (fun p => if p.2 then some p.1 else none)

theorem finalize_scan_spec (v : List Bool) (c : Nat) :
    (finalize_scan v c).2 = c + v.countP (· = true) ∧
    (finalize_scan v c).1.length = v.length ∧
    validEntries v (finalize_scan v c).1 =
      (List.range' c (v.countP (· = true))).map (fun k => (k : Int)) ∧
    (∀ i, i < v.length →
      ((0 ≤ (finalize_scan v c).1.getD i 0 ↔ v.getD i false = true) ∧
       (v.getD i false = false → (finalize_scan v c).1.getD i 0 = -1))) := by
  induction v generalizing c with
  | nil =>
    refine ⟨by simp [finalize_scan], by simp [finalize_scan],
      by simp [finalize_scan, validEntries], ?_⟩
    intro i hi
    simp at hi
  | cons b rest ih =>
    cases b with
    | true =>
      obtain ⟨h2, hlen, hve, hidx⟩ := ih (c + 1)
      have hcount : (true :: rest).countP (· = true) =
          rest.countP (· = true) + 1 := by
        simp [List.countP_cons]
      refine ⟨?_, ?_, ?_, ?_⟩
      · have hstep2 : (finalize_scan (true :: rest) c).2 =
            (finalize_scan rest (c + 1)).2 := by
          simp [finalize_scan]
        rw [hstep2, h2, hcount]
        omega
      · simp [finalize_scan, hlen]
      · have hstep : validEntries (true :: rest) (finalize_scan (true :: rest) c).1 =
            (c : Int) :: validEntries rest (finalize_scan rest (c + 1)).1 := by
          simp [finalize_scan, validEntries]
        rw [hstep, hve, hcount, List.range'_succ]
        simp
      · intro i hi
        cases i with
        | zero =>
          refine ⟨?_, ?_⟩
          · simp [finalize_scan]
          · intro hcontra
            simp at hcontra
        | succ j =>
          have hj : j < rest.length := by
            simpa using hi
          have := hidx j hj
          simpa [finalize_scan] using this
    | false =>
      obtain ⟨h2, hlen, hve, hidx⟩ := ih c
      have hcount : (false :: rest).countP (· = true) =
          rest.countP (· = true) := by
        simp [List.countP_cons]
      refine ⟨?_, ?_, ?_, ?_⟩
      · have hstep2 : (finalize_scan (false :: rest) c).2 =
            (finalize_scan rest c).2 := by
          simp [finalize_scan]
        rw [hstep2, h2, hcount]
      · simp [finalize_scan, hlen]
      · have hstep : validEntries (false :: rest) (finalize_scan (false :: rest) c).1 =
            validEntries rest (finalize_scan rest c).1 := by
          simp [finalize_scan, validEntries]
        rw [hstep, hve, hcount]
      · intro i hi
        cases i with
        | zero =>
          refine ⟨?_, ?_⟩
          · simp [finalize_scan]
          · intro _
            simp [finalize_scan]
        | succ j =>
          have hj : j < rest.length := by
            simpa using hi
          have := hidx j hj
          simpa [finalize_scan] using this

/-- **C1.** `finalize()` returns the number of sites with `is_valid` true;
`hamiltonian_indices[i] ≥ 0` iff `is_valid[i]`; invalid sites hold `-1`;
and the values at the valid sites, read in ascending raw site index order,
are exactly `0, 1, …, count-1` (an order-preserving bijection onto
`{0, …, count-1}` with no gaps). -/
theorem finalize_compaction (is_valid : List Bool) :
    (finalize is_valid).2 = is_valid.countP (· = true) ∧
    (finalize is_valid).1.length = is_valid.length ∧
    validEntries is_valid (finalize is_valid).1 =
      (List.range (finalize is_valid).2).map (fun k => (k : Int)) ∧
    (∀ i, i < is_valid.length →
      ((0 ≤ (finalize is_valid).1.getD i 0 ↔ is_valid.getD i false = true) ∧
       (is_valid.getD i false = false → (finalize is_valid).1.getD i 0 = -1))) := by
  obtain ⟨h2, hlen, hve, hidx⟩ := finalize_scan_spec is_valid 0
  refine ⟨by simpa [finalize] using h2, by simpa [finalize] using hlen, ?_,
    by simpa [finalize] using hidx⟩
  have hr : List.range (finalize is_valid).2 =
      List.range' 0 (is_valid.countP (· = true)) := by
    rw [show (finalize is_valid).2 = is_valid.countP (· = true) from by
      simpa [finalize] using h2]
    exact List.range_eq_range' _
  rw [hr]
  simpa [finalize] using hve

/-- Witness for C1 at a concrete input. -/
theorem finalize_compaction_witness :
    validEntries [true, false, true] (finalize [true, false, true]).1 =
      (List.range (finalize [true, false, true]).2).map (fun k => (k : Int)) ∧
    (finalize [true, false, true]).1.getD 1 0 = -1 := by
  have h := finalize_compaction [true, false, true]
  exact ⟨h.2.2.1, (h.2.2.2 1 (by decide)).2 (by decide)⟩

/-! ## Foundation::init_neighbor_count (Foundation.cpp lines 102-118)

```cpp
auto num_neighbors = static_cast<int16_t>(sublattice.hoppings.size());
for (auto const& hopping : sublattice.hoppings) {
    auto const index = (site.index + hopping.relative_index).array();
    if (any_of(index < 0) || any_of(index >= size.array()))
        num_neighbors -= 1;
}
```
-/

/-- A `Hopping` record of a sublattice (relative unit-cell offset, target
sublattice id, registered energy id, conjugate flag). -/
structure Hopping where
  relative_index : Index3D
  to_sublattice : Int
  energy_id : Int
  is_conjugate : Bool
deriving DecidableEq, Repr

/-- `any_of(index < 0) || any_of(index >= size.array())` for
`index = site.index + hopping.relative_index`. -/
def targetOutside (size site_index rel : Index3D) : Bool :=
  let t := site_index.add rel
  decide (t.x < 0) || decide (t.y < 0) || decide (t.z < 0) ||
  decide (size.x ≤ t.x) || decide (size.y ≤ t.y) || decide (size.z ≤ t.z)

/-- The neighbor count computed for one site by `init_neighbor_count`:
start from the sublattice's hopping-list length and subtract one per
out-of-bounds hopping, exactly as the loop does. -/
def init_neighbor_count_site (size site_index : Index3D) (hoppings : List Hopping) : Int :=
  hoppings.foldl
    (fun n h => if targetOutside size site_index h.relative_index then n - 1 else n)
    (hoppings.length : Int)

theorem foldl_sub_one_countP (p : Hopping → Bool) (l : List Hopping) (a : Int) :
    l.foldl (fun n h => if p h then n - 1 else n) a = a - l.countP p := by
  induction l generalizing a with
  | nil => simp
  | cons h t ih =>
    by_cases hp : p h = true
    · have hc : (h :: t).countP p = t.countP p + 1 := by
        simp [List.countP_cons, hp]
      rw [List.foldl_cons, if_pos hp, ih, hc]
      push_cast
      ring
    · have hc : (h :: t).countP p = t.countP p := by
        simp [List.countP_cons, hp]
      rw [List.foldl_cons, if_neg hp, ih, hc]

/-- **C3.** For every site, the initial neighbor count equals the total
length of the site's sublattice hopping list minus one for each hopping
whose target unit-cell index (site index plus relative index) falls outside
`[0, size)` in any dimension. -/
theorem init_neighbor_count_spec (size site_index : Index3D) (hoppings : List Hopping) :
    init_neighbor_count_site size site_index hoppings =
      (hoppings.length : Int) -
        hoppings.countP (fun h => targetOutside size site_index h.relative_index) := by
  exact foldl_sub_one_countP _ hoppings _

/-! ## Foundation::make_sublattice_ids (Foundation.cpp lines 171-182)

```cpp
for (auto i = 0; i < num_sites;) {
    for (auto id = sub_id{0}; id < max_id; ++id, ++i) {
        sublattice_ids[i] = id;
    }
}
```

The outer loop advances `i` by `max_id` per iteration; it is embedded with
explicit fuel (the loop runs at most `num_sites` iterations since the
sublattice count is positive whenever `num_sites > 0`). -/

/-- The nested fill loop: while `i < num_sites`, emit one block
`0, 1, …, n-1` and advance `i` by `n`. -/
def make_ids_go (num_sites n : Nat) : Nat → Nat → List Nat
  | _, 0 => []
  | i, fuel + 1 =>
    if i < num_sites then List.range n ++ make_ids_go num_sites n (i + n) fuel
    else []

/-- `Foundation::make_sublattice_ids` (the array of per-site sublattice ids). -/
def make_sublattice_ids (num_sites n : Nat) : List Nat :=
  make_ids_go num_sites n 0 (num_sites + 1)

theorem make_ids_go_spec (n : Nat) (hn : 0 < n) :
    ∀ m fuel i, m ≤ fuel →
      make_ids_go (i + m * n) n i fuel = (List.replicate m (List.range n)).flatten := by
  intro m
  induction m with
  | zero =>
    intro fuel i _
    cases fuel with
    | zero => simp [make_ids_go]
    | succ f => simp [make_ids_go]
  | succ m ih =>
    intro fuel i hm
    cases fuel with
    | zero => omega
    | succ f =>
      have hlt : i < i + (m + 1) * n := by
        have : 0 < (m + 1) * n := Nat.mul_pos (Nat.succ_pos m) hn
        omega
      have harith : i + (m + 1) * n = (i + n) + m * n := by ring
      rw [make_ids_go, if_pos hlt, harith, ih f (i + n) (by omega)]
      simp [List.replicate_succ]

theorem flatten_replicate_range (n : Nat) :
    ∀ m, (List.replicate m (List.range n)).flatten =
      (List.range (m * n)).map (fun i => i % n) := by
  intro m
  induction m with
  | zero => simp
  | succ m ih =>
    rw [List.replicate_succ, List.flatten_cons, ih]
    rw [show (m + 1) * n = n + m * n from by ring, List.range_add, List.map_append,
      List.map_map]
    congr 1
    · symm
      refine (List.map_congr_left ?_).trans (List.map_id _)
      intro a ha
      exact Nat.mod_eq_of_lt (List.mem_range.mp ha)
    · refine List.map_congr_left ?_
      intro a _
      simp [Function.comp, Nat.add_mod_left]

theorem getD_map_range (f : Nat → Nat) (N i : Nat) (h : i < N) :
    ((List.range N).map f).getD i 0 = f i := by
  simp [List.getD_eq_getElem?_getD, List.getElem?_map, List.getElem?_range, h]

/-- **C10.** For every Foundation (with `num_sites = num_cells * n` where
`n` is the number of sublattices), `make_sublattice_ids` returns an array
of length `num_sites` whose element `i` equals `i % n`: the sublattice id
is the fastest-varying component of the flattened site index. -/
theorem make_sublattice_ids_spec (num_cells n : Nat) :
    (make_sublattice_ids (num_cells * n) n).length = num_cells * n ∧
    (∀ i, i < num_cells * n → (make_sublattice_ids (num_cells * n) n).getD i 0 = i % n) := by
  rcases Nat.eq_zero_or_pos n with h0 | hn
  · subst h0
    constructor
    · simp [make_sublattice_ids, make_ids_go]
    · intro i hi
      omega
  · have hgo : make_sublattice_ids (num_cells * n) n =
        (List.range (num_cells * n)).map (fun i => i % n) := by
      have h1 := make_ids_go_spec n hn num_cells (num_cells * n + 1) 0
        (by nlinarith)
      rw [Nat.zero_add] at h1
      rw [make_sublattice_ids, h1, flatten_replicate_range]
    constructor
    · rw [hgo]
      simp
    · intro i hi
      rw [hgo, getD_map_range _ _ _ hi]

/-- Witness for C10 at a concrete input. -/
theorem make_sublattice_ids_spec_witness :
    (make_sublattice_ids (2 * 3) 3).length = 2 * 3 ∧
    (make_sublattice_ids (2 * 3) 3).getD 4 0 = 4 % 3 :=
  ⟨(make_sublattice_ids_spec 2 3).1, (make_sublattice_ids_spec 2 3).2 4 (by decide)⟩

/-! ## Hopping generator storage (test_system.cpp lines 165-183 and 196-208)

The `System` hopping-matrix construction that merges generator edges is not
part of the excerpt; only its unit tests are. -/

/-- Modelled from the spec: storing one generator edge (§4.4 — generator
edges are merged "into the same upper-triangular convention;
duplicate-or-reversed edges contributed by a generator must collapse to the
existing stored entry rather than create a second one"). The directed edge
`e` is normalized to its upper-triangular position and inserted only if that
position is not already stored. -/
def store_step (acc : List (Nat × Nat)) (e : Nat × Nat) : List (Nat × Nat) :=
  if (if e.1 ≤ e.2 then (e.1, e.2) else (e.2, e.1)) ∈ acc then acc
  else acc ++ [if e.1 ≤ e.2 then (e.1, e.2) else (e.2, e.1)]

/-- Modelled from the spec: the set of nonzero positions produced by a
hopping generator's edge list (`HoppingGenerator::Result` zipped into
`(from, to)` pairs). -/
def storeGeneratedHoppings (edges : List (Nat × Nat)) : List (Nat × Nat) :=
  edges.foldl store_step []

theorem store_step_upper (acc : List (Nat × Nat)) (e : Nat × Nat)
    (hacc : ∀ p ∈ acc, p.1 ≤ p.2) : ∀ p ∈ store_step acc e, p.1 ≤ p.2 := by
  intro p hp
  by_cases he : e.1 ≤ e.2
  · simp only [store_step, if_pos he] at hp
    by_cases hm : (e.1, e.2) ∈ acc
    · exact hacc p (by rwa [if_pos hm] at hp)
    · rw [if_neg hm] at hp
      rcases List.mem_append.mp hp with h | h
      · exact hacc p h
      · have hpe : p = (e.1, e.2) := by simpa using h
        rw [hpe]
        exact he
  · simp only [store_step, if_neg he] at hp
    by_cases hm : (e.2, e.1) ∈ acc
    · exact hacc p (by rwa [if_pos hm] at hp)
    · rw [if_neg hm] at hp
      rcases List.mem_append.mp hp with h | h
      · exact hacc p h
      · have hpe : p = (e.2, e.1) := by simpa using h
        rw [hpe]
        omega

theorem store_fold_upper (edges : List (Nat × Nat)) :
    ∀ acc : List (Nat × Nat), (∀ p ∈ acc, p.1 ≤ p.2) →
      ∀ p ∈ edges.foldl store_step acc, p.1 ≤ p.2 := by
  induction edges with
  | nil =>
    intro acc hacc
    simpa using hacc
  | cons e rest ih =>
    intro acc hacc
    rw [List.foldl_cons]
    exact ih _ (store_step_upper acc e hacc)

/-- **C4.** Generator edges are stored in upper-triangular form with
reversed duplicates collapsed: `from=[0], to=[1]` produces exactly one
stored nonzero at `(0,1)` (never at `(1,0)`); returning both `(0,1)` and
its reverse `(1,0)` still produces exactly the one stored nonzero at
`(0,1)`; and every stored position is upper-triangular. -/
theorem generator_upper_triangular :
    storeGeneratedHoppings [(0, 1)] = [(0, 1)] ∧
    storeGeneratedHoppings [(0, 1), (1, 0)] = [(0, 1)] ∧
    (∀ edges : List (Nat × Nat), ∀ p ∈ storeGeneratedHoppings edges, p.1 ≤ p.2) := by
  refine ⟨by decide, by decide, ?_⟩
  intro edges p hp
  exact store_fold_upper edges [] (by simp) p hp

/-- Witness for C4 at a concrete input. -/
theorem generator_upper_triangular_witness :
    storeGeneratedHoppings [(0, 1)] = [(0, 1)] ∧
    ((1, 2) : Nat × Nat).1 ≤ ((1, 2) : Nat × Nat).2 :=
  ⟨generator_upper_triangular.1,
   generator_upper_triangular.2.2 [(2, 1)] (1, 2) (by decide)⟩

/-! ## nonzeros_per_row (test_system.cpp lines 211-225)

The implementation of `nonzeros_per_row` is outside the excerpt; its
behaviour is pinned by the unit test: on the 5×5 upper-triangular fixture
with entries at `(0,3)`, `(0,4)`, `(2,0)` it must return `[3, 0, 1, 1, 1]`
when the second argument is `false` and `[4, 1, 2, 2, 2]` when it is
`true`. That is: each stored entry `(r, c)` contributes one nonzero to row
`r` and one to row `c` (the implied Hermitian-conjugate entry that
Hamiltonian assembly materializes), and the `true` mode adds one diagonal
entry per row. The fixture has no diagonal entries, so it does not
constrain how a stored diagonal entry would be counted. -/

/-- `nonzeros_per_row(matrix, b)` on a sparse matrix given as an entry
list, as pinned by the unit test. -/
def nonzeros_per_row (rows : Nat) (entries : List (Nat × Nat)) (diagonal : Bool) :
    List Nat :=
  (List.range rows).map (fun r =>
    (if diagonal then 1 else 0) +
    entries.countP (fun e => e.1 == r) + entries.countP (fun e => e.2 == r))

/-- Modelled from the spec: the claim's prescribed semantics for
`nonzeros_per_row` — `mirrored=false` returns the raw per-row nonzero
count; `mirrored=true` counts each off-diagonal entry once for its row and
once for its mirrored column. -/
def nonzeros_per_row_claimed (rows : Nat) (entries : List (Nat × Nat)) (mirrored : Bool) :
    List Nat :=
  (List.range rows).map (fun r =>
    entries.countP (fun e => e.1 == r) +
    (if mirrored then entries.countP (fun e => e.2 == r && !(e.1 == r)) else 0))

/-- **C8 counterexample.** On the 5×5 fixture with entries `(0,3)`, `(0,4)`,
`(2,0)`, the test requires `nonzeros_per_row(sm, false) = [3, 0, 1, 1, 1]`,
but the claim's definitions prescribe the raw per-row count
`[2, 0, 1, 0, 0]` for `false` (and `[3, 0, 1, 1, 1]` for `true`, where the
test requires `[4, 1, 2, 2, 2]`): the claim's prescription disagrees with
the code at this input. -/
theorem nonzeros_per_row_claim_false :
    nonzeros_per_row 5 [(0, 3), (0, 4), (2, 0)] false = [3, 0, 1, 1, 1] ∧
    nonzeros_per_row_claimed 5 [(0, 3), (0, 4), (2, 0)] false = [2, 0, 1, 0, 0] ∧
    nonzeros_per_row_claimed 5 [(0, 3), (0, 4), (2, 0)] true = [3, 0, 1, 1, 1] ∧
    nonzeros_per_row 5 [(0, 3), (0, 4), (2, 0)] false ≠
      nonzeros_per_row_claimed 5 [(0, 3), (0, 4), (2, 0)] false := by
  refine ⟨by decide, by decide, by decide, by decide⟩

/-- **C8 (amended).** `nonzeros_per_row(matrix, b)` returns, for each row,
the count of stored entries in that row plus the count of stored entries in
the mirrored column (each off-diagonal entry counted once for its row and
once for its mirrored column); with `b = true` it additionally counts one
diagonal entry per row. On the 5×5 fixture with entries `(0,3)`, `(0,4)`,
`(2,0)` the two modes return `[3, 0, 1, 1, 1]` and `[4, 1, 2, 2, 2]`. -/
theorem nonzeros_per_row_fixture :
    nonzeros_per_row 5 [(0, 3), (0, 4), (2, 0)] false = [3, 0, 1, 1, 1] ∧
    nonzeros_per_row 5 [(0, 3), (0, 4), (2, 0)] true = [4, 1, 2, 2, 2] := by
  refine ⟨by decide, by decide⟩

/-! ## uref_cast (include/support/uref.hpp lines 50-55)

```cpp
template<class Derived>
Eigen::Map<const Derived> uref_cast(const DenseURef& u) {
    if (u.type != detail::get_type<typename Derived::Scalar>())
        throw std::logic_error{"eigen_cast(DenseURef) - wrong scalar type selected"};
    return detail::make_map<Derived>::exec(u);
}
```
-/

/-- The `ScalarType` enum from uref.hpp. -/
inductive ScalarType where
  | f | cf | d | cd | i | none
deriving DecidableEq, Repr

/-- The concrete scalar types for which `detail::get_type` is specialized
(`float`, `std::complex<float>`, `double`, `std::complex<double>`, `int`). -/
inductive CScalar where
  | float | complexFloat | double | complexDouble | int
deriving DecidableEq, Repr

/-- `detail::get_type<scalar_t>()`. -/
def get_type : CScalar → ScalarType
  | .float => .f
  | .complexFloat => .cf
  | .double => .d
  | .complexDouble => .cd
  | .int => .i

/-- The type-erased dense view: scalar tag, data pointer (abstracted as an
address), storage order and dimensions. -/
structure DenseURef where
  type : ScalarType
  data : Nat
  is_row_major : Bool
  rows : Int
  cols : Int
deriving DecidableEq, Repr

/-- The Eigen `Map` built by `detail::make_map`: over the same data pointer,
one-dimensional of extent `is_row_major ? cols : rows` for vector types,
two-dimensional `(rows, cols)` otherwise. -/
inductive EigenMap where
  | vec (data : Nat) (size : Int)
  | mat (data : Nat) (rows cols : Int)
deriving DecidableEq, Repr

/-- `detail::make_map<Derived>::exec(u)`; `is_vector` is
`Derived::IsVectorAtCompileTime`. -/
def make_map (is_vector : Bool) (u : DenseURef) : EigenMap :=
  if is_vector then .vec u.data (if u.is_row_major then u.cols else u.rows)
  else .mat u.data u.rows u.cols

/-- `uref_cast<Derived>(u)`: the thrown `std::logic_error` is modelled as
`Except.error`. -/
def uref_cast (T : CScalar) (is_vector : Bool) (u : DenseURef) : Except String EigenMap :=
  if u.type ≠ get_type T then
    .error "eigen_cast(DenseURef) - wrong scalar type selected"
  else .ok (make_map is_vector u)

/-- **C5.** `uref_cast<T>(u)` throws exactly when `u`'s declared scalar tag
differs from `T`'s tag; when the tags match it returns a view over the same
data pointer with the same dimensions, never reinterpreting memory under a
mismatched tag. -/
theorem uref_cast_spec (T : CScalar) (is_vector : Bool) (u : DenseURef) :
    ((∃ e, uref_cast T is_vector u = .error e) ↔ u.type ≠ get_type T) ∧
    (∀ m, uref_cast T is_vector u = .ok m →
      u.type = get_type T ∧
      m = (if is_vector then
             EigenMap.vec u.data (if u.is_row_major then u.cols else u.rows)
           else EigenMap.mat u.data u.rows u.cols)) := by
  by_cases h : u.type = get_type T
  · refine ⟨?_, ?_⟩
    · simp [uref_cast, h]
    · intro m hm
      simp only [uref_cast, h, ne_eq, not_true_eq_false, if_false, ite_false] at hm
      refine ⟨h, ?_⟩
      have : m = make_map is_vector u := by
        simpa using hm.symm
      rw [this, make_map]
  · refine ⟨?_, ?_⟩
    · simp [uref_cast, h]
    · intro m hm
      simp [uref_cast, h] at hm

/-- Witness for C5: a float-tagged view read back as double fails, and read
back as float yields the map over the same data and dimensions. -/
theorem uref_cast_spec_witness :
    (∃ e, uref_cast CScalar.double false (DenseURef.mk ScalarType.f 42 false 3 1)
        = Except.error e) ∧
    ((DenseURef.mk ScalarType.f 42 false 3 1).type = get_type CScalar.float ∧
      EigenMap.mat 42 3 1 = (if false then
          EigenMap.vec (DenseURef.mk ScalarType.f 42 false 3 1).data
            (if (DenseURef.mk ScalarType.f 42 false 3 1).is_row_major then
              (DenseURef.mk ScalarType.f 42 false 3 1).cols
             else (DenseURef.mk ScalarType.f 42 false 3 1).rows)
        else EigenMap.mat (DenseURef.mk ScalarType.f 42 false 3 1).data
          (DenseURef.mk ScalarType.f 42 false 3 1).rows
          (DenseURef.mk ScalarType.f 42 false 3 1).cols)) :=
  ⟨(uref_cast_spec CScalar.double false _).1.mpr (by decide),
   (uref_cast_spec CScalar.float false _).2 (EigenMap.mat 42 3 1) rfl⟩

/-! ## Lattice::add_registered_hopping (test_system.cpp lines 54-80)

`Lattice.cpp` is not part of the excerpt; only the unit tests are in
`src/`. The operation is modelled from the spec (§4.1 and §3) and checked
against the test's observable requirements (range failures, self-hop
failure, mirrored `-Δ` records, both records landing in the same list when
`from == to`). -/

/-- `Sublattice.has` — whether a hopping with the same relative index and
target sublattice is already recorded (the duplicate that
`Sublattice::add_hopping` rejects, test_system.cpp line 21). -/
def sublatticeHasHopping (hoppings : List Hopping) (rel : Index3D) (to_sub : Int) : Bool :=
  hoppings.any (fun h => h.relative_index == rel && h.to_sublattice == to_sub)

/-- Modelled from the spec: `Sublattice::add_hopping` (implementation not
in the excerpt) — rejects a duplicate record, otherwise appends. -/
def sublatticeAddHopping (hoppings : List Hopping) (rel : Index3D) (to_sub : Int)
    (id : Int) (is_conj : Bool) : Except String (List Hopping) :=
  if sublatticeHasHopping hoppings rel to_sub then .error "hopping already exists"
  else .ok (hoppings ++ [⟨rel, to_sub, id, is_conj⟩])

/-- The `Lattice` state relevant to `add_registered_hopping`: one hopping
list per sublattice and the number of registered hopping energies. -/
structure Lattice where
  sublattices : List (List Hopping)
  num_hopping_energies : Int
deriving DecidableEq, Repr

/-- Modelled from the spec: `Lattice::add_registered_hopping(Δ, from, to,
hopping_id)` (implementation not in the excerpt) — "fails if `from`/`to`
out of range, if `hopping_id` out of range, or if (Δ=0, from==to)"; on
success "appends a Hopping record to sublattice `from`'s list with
`relative_index=Δ`, and the mirrored record `(-Δ)` to sublattice `to`'s
list"; the mirror is added "if the two sublattices or offsets differ". -/
def add_registered_hopping (lat : Lattice) (Δ : Index3D) (from_ to_ id : Int) :
    Except String Lattice :=
  if ¬(0 ≤ from_ ∧ from_ < (lat.sublattices.length : Int)) then
    .error "sublattice id out of range"
  else if ¬(0 ≤ to_ ∧ to_ < (lat.sublattices.length : Int)) then
    .error "sublattice id out of range"
  else if ¬(0 ≤ id ∧ id < lat.num_hopping_energies) then
    .error "hopping id out of range"
  else if Δ = Index3D.zero ∧ from_ = to_ then
    .error "self-hopping with zero offset is not allowed"
  else
    match sublatticeAddHopping (lat.sublattices.getD from_.toNat []) Δ to_ id false with
    | .error e => .error e
    | .ok lf =>
      let lat1 : Lattice := ⟨lat.sublattices.set from_.toNat lf, lat.num_hopping_energies⟩
      if from_ ≠ to_ ∨ Δ ≠ Δ.neg then
        match sublatticeAddHopping (lat1.sublattices.getD to_.toNat []) Δ.neg from_ id true with
        | .error e => .error e
        | .ok lt2 => .ok ⟨lat1.sublattices.set to_.toNat lt2, lat1.num_hopping_energies⟩
      else .ok lat1

theorem getD_set_ne {α : Type} (l : List α) (i j : Nat) (a : α) (d : α) (h : i ≠ j) :
    (l.set i a).getD j d = l.getD j d := by
  simp [List.getD_eq_getElem?_getD, List.getElem?_set_ne h]

theorem getD_set_self {α : Type} (l : List α) (i : Nat) (a : α) (d : α) (h : i < l.length) :
    (l.set i a).getD i d = a := by
  simp [List.getD_eq_getElem?_getD, List.getElem?_set_self, h]

/-- **C6.** `add_registered_hopping(Δ, from, to, id)` fails when `from` or
`to` is out of the sublattice-id range, when `id` is out of the
registered-energy range, or when `Δ = 0` and `from == to`; on success it
appends the forward record with `relative_index = Δ` to sublattice `from`'s
list and the mirrored record with `relative_index = -Δ` to sublattice
`to`'s list (both into the same list when `from == to`). -/
theorem add_registered_hopping_spec (lat : Lattice) (Δ : Index3D) (from_ to_ id : Int) :
    ((¬(0 ≤ from_ ∧ from_ < (lat.sublattices.length : Int)) ∨
      ¬(0 ≤ to_ ∧ to_ < (lat.sublattices.length : Int)) ∨
      ¬(0 ≤ id ∧ id < lat.num_hopping_energies) ∨
      (Δ = Index3D.zero ∧ from_ = to_)) →
      ∃ e, add_registered_hopping lat Δ from_ to_ id = .error e) ∧
    ((0 ≤ from_ ∧ from_ < (lat.sublattices.length : Int) ∧
      0 ≤ to_ ∧ to_ < (lat.sublattices.length : Int) ∧
      0 ≤ id ∧ id < lat.num_hopping_energies ∧ from_ ≠ to_ ∧
      sublatticeHasHopping (lat.sublattices.getD from_.toNat []) Δ to_ = false ∧
      sublatticeHasHopping (lat.sublattices.getD to_.toNat []) Δ.neg from_ = false) →
      ∃ lat' : Lattice, add_registered_hopping lat Δ from_ to_ id = .ok lat' ∧
        lat'.sublattices.getD from_.toNat [] =
          lat.sublattices.getD from_.toNat [] ++ [⟨Δ, to_, id, false⟩] ∧
        lat'.sublattices.getD to_.toNat [] =
          lat.sublattices.getD to_.toNat [] ++ [⟨Δ.neg, from_, id, true⟩]) ∧
    ((0 ≤ from_ ∧ from_ < (lat.sublattices.length : Int) ∧
      0 ≤ id ∧ id < lat.num_hopping_energies ∧ from_ = to_ ∧ Δ ≠ Index3D.zero ∧
      sublatticeHasHopping (lat.sublattices.getD from_.toNat []) Δ to_ = false ∧
      sublatticeHasHopping (lat.sublattices.getD from_.toNat []) Δ.neg from_ = false) →
      ∃ lat' : Lattice, add_registered_hopping lat Δ from_ to_ id = .ok lat' ∧
        lat'.sublattices.getD from_.toNat [] =
          lat.sublattices.getD from_.toNat [] ++
            [⟨Δ, to_, id, false⟩, ⟨Δ.neg, from_, id, true⟩]) := by
  refine ⟨?_, ?_, ?_⟩
  · intro h
    rw [add_registered_hopping]
    rcases h with h | h | h | h
    · rw [if_pos h]
      exact ⟨_, rfl⟩
    · by_cases hf : ¬(0 ≤ from_ ∧ from_ < (lat.sublattices.length : Int))
      · rw [if_pos hf]
        exact ⟨_, rfl⟩
      · rw [if_neg hf, if_pos h]
        exact ⟨_, rfl⟩
    · by_cases hf : ¬(0 ≤ from_ ∧ from_ < (lat.sublattices.length : Int))
      · rw [if_pos hf]
        exact ⟨_, rfl⟩
      · rw [if_neg hf]
        by_cases ht : ¬(0 ≤ to_ ∧ to_ < (lat.sublattices.length : Int))
        · rw [if_pos ht]
          exact ⟨_, rfl⟩
        · rw [if_neg ht, if_pos h]
          exact ⟨_, rfl⟩
    · by_cases hf : ¬(0 ≤ from_ ∧ from_ < (lat.sublattices.length : Int))
      · rw [if_pos hf]
        exact ⟨_, rfl⟩
      · rw [if_neg hf]
        by_cases ht : ¬(0 ≤ to_ ∧ to_ < (lat.sublattices.length : Int))
        · rw [if_pos ht]
          exact ⟨_, rfl⟩
        · rw [if_neg ht]
          by_cases hid : ¬(0 ≤ id ∧ id < lat.num_hopping_energies)
          · rw [if_pos hid]
            exact ⟨_, rfl⟩
          · rw [if_neg hid, if_pos h]
            exact ⟨_, rfl⟩
  · rintro ⟨h1, h2, h3, h4, h5, h6, hne, hd1, hd2⟩
    have hfn : from_.toNat < lat.sublattices.length := by omega
    have htn : to_.toNat < lat.sublattices.length := by omega
    have hnn : from_.toNat ≠ to_.toNat := by omega
    rw [add_registered_hopping, if_neg (by tauto), if_neg (by tauto), if_neg (by tauto),
      if_neg (by tauto)]
    rw [sublatticeAddHopping, if_neg (by rw [hd1]; exact Bool.false_ne_true)]
    have hget : (lat.sublattices.set from_.toNat
        (lat.sublattices.getD from_.toNat [] ++ [⟨Δ, to_, id, false⟩])).getD to_.toNat [] =
        lat.sublattices.getD to_.toNat [] := getD_set_ne _ _ _ _ _ hnn
    simp only
    rw [if_pos (Or.inl hne)]
    rw [sublatticeAddHopping, hget, if_neg (by rw [hd2]; exact Bool.false_ne_true)]
    refine ⟨_, rfl, ?_, ?_⟩
    · rw [getD_set_ne _ _ _ _ _ (Ne.symm hnn), getD_set_self _ _ _ _ hfn]
    · rw [getD_set_self _ _ _ _ (by simpa using htn)]
  · rintro ⟨h1, h2, h3, h4, heq, hz, hd1, hd2⟩
    have hfn : from_.toNat < lat.sublattices.length := by omega
    have hzn : Δ ≠ Δ.neg := by
      intro hc
      apply hz
      obtain ⟨x, y, z⟩ := Δ
      simp [Index3D.neg] at hc
      simp [Index3D.zero]
      omega
    subst heq
    rw [add_registered_hopping, if_neg (by tauto), if_neg (by tauto), if_neg (by tauto),
      if_neg (by tauto)]
    rw [sublatticeAddHopping, if_neg (by rw [hd1]; exact Bool.false_ne_true)]
    simp only
    rw [if_pos (Or.inr hzn)]
    have hget : (lat.sublattices.set from_.toNat
        (lat.sublattices.getD from_.toNat [] ++ [⟨Δ, from_, id, false⟩])).getD from_.toNat [] =
        lat.sublattices.getD from_.toNat [] ++ [⟨Δ, from_, id, false⟩] :=
      getD_set_self _ _ _ _ hfn
    rw [sublatticeAddHopping, hget]
    rw [if_neg ?_]
    · refine ⟨_, rfl, ?_⟩
      rw [List.set_set, getD_set_self _ _ _ _ hfn, List.append_assoc]
      rfl
    · rw [sublatticeHasHopping]
      simp only [List.any_append, Bool.or_eq_true, not_or]
      constructor
      · rw [show (lat.sublattices.getD from_.toNat []).any
            (fun h => h.relative_index == Δ.neg && h.to_sublattice == from_) =
            sublatticeHasHopping (lat.sublattices.getD from_.toNat []) Δ.neg from_ from rfl,
          hd2]
        simp
      · simp
        exact hzn

/-- Witness for C6 at concrete inputs: a zero-offset self-hop is rejected,
and a successful distinct-sublattice add appends the forward and mirrored
records. -/
theorem add_registered_hopping_spec_witness :
    (∃ e, add_registered_hopping ⟨[[], []], 1⟩ Index3D.zero 0 0 0 = .error e) ∧
    (∃ lat' : Lattice,
      add_registered_hopping ⟨[[], []], 1⟩ ⟨1, 0, 0⟩ 0 1 0 = .ok lat' ∧
      lat'.sublattices.getD (0 : Int).toNat [] =
        ([] : List Hopping) ++ [⟨⟨1, 0, 0⟩, 1, 0, false⟩] ∧
      lat'.sublattices.getD (1 : Int).toNat [] =
        ([] : List Hopping) ++ [⟨(Index3D.mk 1 0 0).neg, 0, 0, true⟩]) := by
  constructor
  · exact (add_registered_hopping_spec ⟨[[], []], 1⟩ Index3D.zero 0 0 0).1
      (Or.inr (Or.inr (Or.inr ⟨rfl, rfl⟩)))
  · exact (add_registered_hopping_spec ⟨[[], []], 1⟩ ⟨1, 0, 0⟩ 0 1 0).2.1
      (by refine ⟨by decide, by decide, by decide, by decide, by decide, by decide,
        by decide, by decide, by decide⟩)

/-! ## add_unique (SystemModifiers.cpp lines 4-18, HamiltonianModifiers.cpp
lines 4-18)

```cpp
bool SystemModifiers::add_unique(const std::shared_ptr<const SiteStateModifier>& m) {
    if (std::find(state.begin(), state.end(), m) == state.end()) {
        state.push_back(m);
        return true;
    }
    return false;
}
```

All four overloads (site-state, position, on-site, hopping) are this same
algorithm over their respective lists. A `std::shared_ptr` handle is
modelled by the address it owns (a `Nat`); `std::find` compares handles by
that identity, never by the pointee's content. -/

/-- `add_unique`: append `m` and return `true` when no identical handle is
present, otherwise leave the list unchanged and return `false`. -/
def add_unique (l : List Nat) (m : Nat) : List Nat × Bool :=
  if l.contains m then (l, false) else (l ++ [m], true)

/-- **C7.** `add_unique(m)` appends `m` and returns `true` when no handle
identical to `m` is in the list; otherwise it leaves the list unchanged and
returns `false`; adding the same object reference twice leaves exactly one
entry. -/
theorem add_unique_spec (l : List Nat) (m : Nat) :
    (m ∉ l → add_unique l m = (l ++ [m], true)) ∧
    (m ∈ l → add_unique l m = (l, false)) ∧
    (m ∉ l →
      (add_unique (add_unique l m).1 m).1 = l ++ [m] ∧
      (add_unique (add_unique l m).1 m).1.count m = 1) := by
  refine ⟨?_, ?_, ?_⟩
  · intro h
    simp [add_unique, h]
  · intro h
    simp [add_unique, h]
  · intro h
    have h1 : (add_unique l m).1 = l ++ [m] := by
      simp [add_unique, h]
    have h2 : add_unique (add_unique l m).1 m = ((add_unique l m).1, false) := by
      simp [add_unique, h]
    constructor
    · rw [h2, h1]
    · rw [h2, h1, List.count_append, List.count_eq_zero.mpr h]
      simp

/-- Witness for C7 at a concrete input. -/
theorem add_unique_spec_witness :
    add_unique [3] 5 = ([3, 5], true) ∧
    (add_unique (add_unique [3] 5).1 5).1.count 5 = 1 := by
  refine ⟨(add_unique_spec [3] 5).1 (by decide), ((add_unique_spec [3] 5).2.2 (by decide)).2⟩

/-! ## Foundation::find_bounds (Foundation.cpp lines 64-93)

```cpp
Array3i lower_bound = Array3i::Constant(std::numeric_limits<int>::max());
Array3i upper_bound = Array3i::Constant(std::numeric_limits<int>::min());
for (auto const& point : shape.vertices) {
    auto const& p = point.head(ndim);
    Array3i v = Array3i::Zero();
    v.head(ndim) = lattice_matrix.colPivHouseholderQr().solve(p).cast<int>();
    lower_bound = (v < lower_bound).select(v, lower_bound);
    upper_bound = (v > upper_bound).select(v, upper_bound);
}
lower_bound.head(ndim) -= 1;
upper_bound.head(ndim) += 1;
return {lower_bound, upper_bound};
```

Each vertex is consumed only through the solution of
`lattice_matrix · v = p` truncated to `int`. The floating-point QR solve is
abstracted as a function from vertices to the truncated integer solution;
Eigen's `colPivHouseholderQr().solve` is total: for a singular (degenerate)
matrix it still returns a least-squares solution and never throws, and
`find_bounds` contains no singularity check and no failure path of its own. -/

/-- `std::numeric_limits<int>::max()`. -/
def intMax : Int := 2147483647

/-- `std::numeric_limits<int>::min()`. -/
def intMin : Int := -2147483648

/-- Componentwise minimum, `(v < lower).select(v, lower)`. -/
def Index3D.cmin (a b : Index3D) : Index3D := ⟨min a.x b.x, min a.y b.y, min a.z b.z⟩

/-- Componentwise maximum, `(v > upper).select(v, upper)`. -/
def Index3D.cmax (a b : Index3D) : Index3D := ⟨max a.x b.x, max a.y b.y, max a.z b.z⟩

/-- `Array3i v = Array3i::Zero(); v.head(ndim) = …`: components at or past
`ndim` stay zero. -/
def maskDims (ndim : Nat) (v : Index3D) : Index3D :=
  ⟨if 1 ≤ ndim then v.x else 0, if 2 ≤ ndim then v.y else 0, if 3 ≤ ndim then v.z else 0⟩

/-- `lower_bound.head(ndim) -= 1`. -/
def padLower (ndim : Nat) (v : Index3D) : Index3D :=
  ⟨if 1 ≤ ndim then v.x - 1 else v.x, if 2 ≤ ndim then v.y - 1 else v.y,
   if 3 ≤ ndim then v.z - 1 else v.z⟩

/-- `upper_bound.head(ndim) += 1`. -/
def padUpper (ndim : Nat) (v : Index3D) : Index3D :=
  ⟨if 1 ≤ ndim then v.x + 1 else v.x, if 2 ≤ ndim then v.y + 1 else v.y,
   if 3 ≤ ndim then v.z + 1 else v.z⟩

/-- The vertex loop of `find_bounds`: fold the componentwise min/max of the
masked solved vertices from the `INT_MAX`/`INT_MIN` seeds. -/
def find_bounds_fold {α : Type} (ndim : Nat) (solve : α → Index3D) (vertices : List α) :
    Index3D × Index3D :=
  vertices.foldl
    (fun b p =>
      (Index3D.cmin b.1 (maskDims ndim (solve p)),
       Index3D.cmax b.2 (maskDims ndim (solve p))))
    (⟨intMax, intMax, intMax⟩, ⟨intMin, intMin, intMin⟩)

/-- `Foundation::find_bounds`, with the linear solve abstracted as `solve`
(any total function, as Eigen's QR solve is). -/
def find_bounds {α : Type} (ndim : Nat) (solve : α → Index3D) (vertices : List α) :
    Index3D × Index3D :=
  (padLower ndim (find_bounds_fold ndim solve vertices).1,
   padUpper ndim (find_bounds_fold ndim solve vertices).2)

theorem fold_bounds_componentwise {α : Type} (ndim : Nat) (solve : α → Index3D) :
    ∀ (vs : List α) (lo hi : Index3D),
      vs.foldl
        (fun b p =>
          (Index3D.cmin b.1 (maskDims ndim (solve p)),
           Index3D.cmax b.2 (maskDims ndim (solve p)))) (lo, hi) =
      (⟨(vs.map fun p => (maskDims ndim (solve p)).x).foldl min lo.x,
        (vs.map fun p => (maskDims ndim (solve p)).y).foldl min lo.y,
        (vs.map fun p => (maskDims ndim (solve p)).z).foldl min lo.z⟩,
       ⟨(vs.map fun p => (maskDims ndim (solve p)).x).foldl max hi.x,
        (vs.map fun p => (maskDims ndim (solve p)).y).foldl max hi.y,
        (vs.map fun p => (maskDims ndim (solve p)).z).foldl max hi.z⟩) := by
  intro vs
  induction vs with
  | nil => intro lo hi; rfl
  | cons v rest ih =>
    intro lo hi
    rw [List.foldl_cons, ih]
    rfl

/-- **C9 counterexample.** A degenerate 2-dimensional lattice (collinear
primitive vectors) makes the bounding-box solve singular; Eigen's QR solve
still returns some value (abstracted here as the all-zero solution) and
`find_bounds` returns normally — construction proceeds with the padded
bounding box instead of failing with a GeometryDegeneracyError. -/
theorem find_bounds_no_degeneracy_error :
    find_bounds 2 (fun _ : Nat => Index3D.mk 0 0 0) [0] =
      (Index3D.mk (-1) (-1) 0, Index3D.mk 1 1 0) := by decide

/-- **C9 (amended).** `find_bounds` contains no singularity check and never
fails: for every linear-solve outcome (including the degenerate case) and
every vertex list, it returns the componentwise min/max of the solved
vertex coordinates (seeded with `INT_MAX`/`INT_MIN`, components past `ndim`
zeroed), padded by ±1 in each of the first `ndim` directions. -/
theorem find_bounds_total {α : Type} (ndim : Nat) (solve : α → Index3D)
    (vertices : List α) :
    find_bounds ndim solve vertices =
      (padLower ndim
        ⟨(vertices.map fun p => (maskDims ndim (solve p)).x).foldl min intMax,
         (vertices.map fun p => (maskDims ndim (solve p)).y).foldl min intMax,
         (vertices.map fun p => (maskDims ndim (solve p)).z).foldl min intMax⟩,
       padUpper ndim
        ⟨(vertices.map fun p => (maskDims ndim (solve p)).x).foldl max intMin,
         (vertices.map fun p => (maskDims ndim (solve p)).y).foldl max intMin,
         (vertices.map fun p => (maskDims ndim (solve p)).z).foldl max intMin⟩) := by
  rw [find_bounds, find_bounds_fold, fold_bounds_componentwise]

/-! ## Foundation::trim_edges / clear_neighbors (Foundation.cpp lines 120-154)

```cpp
void Foundation::trim_edges() {
    for (auto& site : *this) {
        if (!site.is_valid())
            clear_neighbors(site);
    }
}

void Foundation::clear_neighbors(Site& site) {
    if (site.get_neighbor_count() == 0)
        return;
    site.for_each_neighbour([&](Site neighbor, Hopping) {
        if (!neighbor.is_valid())
            return;
        neighbor.set_neighbor_count(neighbor.get_neighbor_count() - 1);
        if (neighbor.get_neighbor_count() < lattice.min_neighbours) {
            neighbor.set_valid(false);
            clear_neighbors(neighbor); // recursive call...
        }
    });
    site.set_neighbor_count(0);
}
```

The mutable state (`is_valid`, `neighbour_count`) is passed explicitly.
`for_each_neighbour` (declared in Foundation.hpp, outside the excerpt)
enumerates the in-bounds neighbours of a site from the immutable lattice
and grid, so it is modelled as an arbitrary function `nbr : ℕ → List ℕ`
whose members lie below `num_sites`; the theorems hold for every such
neighbour structure, in particular the real one. The C++ recursion has no
structural bound, so it is embedded with fuel; each recursive call is made
immediately after a site flips from valid to invalid, so the number of
valid sites bounds the recursion depth and `num_sites + 1` fuel is always
enough (proved below, not assumed). -/

/-- The Foundation state mutated by trimming. -/
structure TrimState where
  is_valid : Nat → Bool
  neighbour_count : Nat → Int

/-- `site.set_valid(b)`. -/
def TrimState.setValid (st : TrimState) (i : Nat) (b : Bool) : TrimState :=
  { st with is_valid := Function.update st.is_valid i b }

/-- `site.set_neighbor_count(c)`. -/
def TrimState.setCount (st : TrimState) (i : Nat) (c : Int) : TrimState :=
  { st with neighbour_count := Function.update st.neighbour_count i c }

theorem setCount_valid (st : TrimState) (i : Nat) (c : Int) (j : Nat) :
    (st.setCount i c).is_valid j = st.is_valid j := rfl

theorem setValid_count (st : TrimState) (i : Nat) (b : Bool) (j : Nat) :
    (st.setValid i b).neighbour_count j = st.neighbour_count j := rfl

theorem setCount_count (st : TrimState) (i : Nat) (c : Int) (j : Nat) :
    (st.setCount i c).neighbour_count j = if j = i then c else st.neighbour_count j :=
  Function.update_apply st.neighbour_count i c j

theorem setValid_valid (st : TrimState) (i : Nat) (b : Bool) (j : Nat) :
    (st.setValid i b).is_valid j = if j = i then b else st.is_valid j :=
  Function.update_apply st.is_valid i b j

/-- `Foundation::clear_neighbors`, fuel-bounded. -/
def clear_neighbors (nbr : Nat → List Nat) (minn : Int) :
    Nat → Nat → TrimState → TrimState
  | 0, _, st => st
  | fuel + 1, site, st =>
    if st.neighbour_count site = 0 then st
    else
      ((nbr site).foldl
        (fun s n =>
          if s.is_valid n then
            if (s.setCount n (s.neighbour_count n - 1)).neighbour_count n < minn then
              clear_neighbors nbr minn fuel n
                ((s.setCount n (s.neighbour_count n - 1)).setValid n false)
            else s.setCount n (s.neighbour_count n - 1)
          else s) st).setCount site 0

/-- One iteration of the `for_each_neighbour` body of `clear_neighbors`. -/
def clear_step (nbr : Nat → List Nat) (minn : Int) (fuel : Nat)
    (s : TrimState) (n : Nat) : TrimState :=
  if s.is_valid n then
    if (s.setCount n (s.neighbour_count n - 1)).neighbour_count n < minn then
      clear_neighbors nbr minn fuel n
        ((s.setCount n (s.neighbour_count n - 1)).setValid n false)
    else s.setCount n (s.neighbour_count n - 1)
  else s

theorem clear_neighbors_succ (nbr : Nat → List Nat) (minn : Int) (fuel site : Nat)
    (st : TrimState) (h : ¬st.neighbour_count site = 0) :
    clear_neighbors nbr minn (fuel + 1) site st =
      ((nbr site).foldl (clear_step nbr minn fuel) st).setCount site 0 := by
  rw [clear_neighbors, if_neg h]
  rfl

theorem clear_neighbors_count_zero (nbr : Nat → List Nat) (minn : Int)
    (fuel site : Nat) (st : TrimState) (h : st.neighbour_count site = 0) :
    clear_neighbors nbr minn fuel site st = st := by
  cases fuel with
  | zero => rfl
  | succ f => rw [clear_neighbors, if_pos h]

/-- `Foundation::trim_edges`, over `num_sites` sites. -/
def trim_edges (num_sites : Nat) (nbr : Nat → List Nat) (minn : Int) (fuel : Nat)
    (st : TrimState) : TrimState :=
  (List.range num_sites).foldl
    (fun s i => if s.is_valid i then s else clear_neighbors nbr minn fuel i s) st

/-- Number of valid sites among the first `N` (the trimming recursion's
termination measure). -/
def nvalid (N : Nat) (st : TrimState) : Nat :=
  ((Finset.range N).filter (fun i => st.is_valid i = true)).card

/-- Trimming only ever invalidates sites. -/
def Mon (a b : TrimState) : Prop := ∀ i, b.is_valid i = true → a.is_valid i = true

/-- Every site invalid afterwards was either already invalid with its
count untouched, or has count `0`. -/
def Qrel (a b : TrimState) : Prop :=
  ∀ i, b.is_valid i = false →
    (a.is_valid i = false ∧ b.neighbour_count i = a.neighbour_count i) ∨
    b.neighbour_count i = 0

theorem mon_refl (a : TrimState) : Mon a a := fun _ h => h

theorem mon_trans {a b c : TrimState} (h1 : Mon a b) (h2 : Mon b c) : Mon a c :=
  fun i h => h1 i (h2 i h)

theorem qrel_refl (a : TrimState) : Qrel a a := fun _ h => Or.inl ⟨h, rfl⟩

theorem qrel_trans {a b c : TrimState} (h1 : Qrel a b) (h2 : Qrel b c) : Qrel a c := by
  intro i hc
  rcases h2 i hc with ⟨hb, hcnt⟩ | hz
  · rcases h1 i hb with ⟨ha, hcnt'⟩ | hz'
    · exact Or.inl ⟨ha, hcnt.trans hcnt'⟩
    · exact Or.inr (hcnt.trans hz')
  · exact Or.inr hz

theorem nvalid_le (N : Nat) (st : TrimState) : nvalid N st ≤ N := by
  calc nvalid N st ≤ (Finset.range N).card := Finset.card_filter_le _ _
  _ = N := Finset.card_range N

theorem nvalid_mono (N : Nat) {a b : TrimState} (h : Mon a b) :
    nvalid N b ≤ nvalid N a := by
  apply Finset.card_le_card
  intro i hi
  rw [Finset.mem_filter] at hi ⊢
  exact ⟨hi.1, h i hi.2⟩

theorem nvalid_setCount (N : Nat) (st : TrimState) (i : Nat) (c : Int) :
    nvalid N (st.setCount i c) = nvalid N st := rfl

theorem nvalid_setValid_false (N : Nat) (st : TrimState) (n : Nat) (hn : n < N)
    (hv : st.is_valid n = true) :
    nvalid N (st.setValid n false) + 1 = nvalid N st := by
  have hfe : (Finset.range N).filter (fun i => (st.setValid n false).is_valid i = true) =
      ((Finset.range N).filter (fun i => st.is_valid i = true)).erase n := by
    ext i
    simp only [Finset.mem_filter, Finset.mem_erase, Finset.mem_range, setValid_valid]
    constructor
    · rintro ⟨hi, hval⟩
      by_cases hin : i = n
      · rw [if_pos hin] at hval
        cases hval
      · rw [if_neg hin] at hval
        exact ⟨hin, hi, hval⟩
    · rintro ⟨hin, hi, hval⟩
      exact ⟨hi, by rwa [if_neg hin]⟩
  have hmem : n ∈ (Finset.range N).filter (fun i => st.is_valid i = true) := by
    rw [Finset.mem_filter, Finset.mem_range]
    exact ⟨hn, hv⟩
  rw [nvalid, hfe]
  exact Finset.card_erase_add_one hmem

theorem clear_neighbors_good (nbr : Nat → List Nat) (minn : Int) (N : Nat)
    (hnbr : ∀ j, ∀ i ∈ nbr j, i < N) :
    ∀ fuel site st, nvalid N st < fuel →
      Mon st (clear_neighbors nbr minn fuel site st) ∧
      Qrel st (clear_neighbors nbr minn fuel site st) ∧
      (clear_neighbors nbr minn fuel site st).neighbour_count site = 0 := by
  intro fuel
  induction fuel with
  | zero =>
    intro site st h
    exact absurd h (Nat.not_lt_zero _)
  | succ fuel ih =>
    intro site st hnv
    by_cases h0 : st.neighbour_count site = 0
    · rw [clear_neighbors_count_zero nbr minn (fuel + 1) site st h0]
      exact ⟨mon_refl st, qrel_refl st, h0⟩
    · rw [clear_neighbors_succ nbr minn fuel site st h0]
      have hfold : ∀ ns : List Nat, (∀ n ∈ ns, n < N) → ∀ s, nvalid N s ≤ fuel →
          Mon s (ns.foldl (clear_step nbr minn fuel) s) ∧
          Qrel s (ns.foldl (clear_step nbr minn fuel) s) := by
        intro ns
        induction ns with
        | nil =>
          intro _ s _
          exact ⟨mon_refl s, qrel_refl s⟩
        | cons n ns' ihl =>
          intro hns s hs
          rw [List.foldl_cons]
          have hstep : Mon s (clear_step nbr minn fuel s n) ∧
              Qrel s (clear_step nbr minn fuel s n) := by
            by_cases hv : s.is_valid n = true
            · by_cases hlt :
                  (s.setCount n (s.neighbour_count n - 1)).neighbour_count n < minn
              · have hn2 : n < N := hns n (List.mem_cons_self n ns')
                have hnv2 : nvalid N
                    ((s.setCount n (s.neighbour_count n - 1)).setValid n false) < fuel := by
                  have hdec := nvalid_setValid_false N
                    (s.setCount n (s.neighbour_count n - 1)) n hn2 hv
                  rw [nvalid_setCount] at hdec
                  omega
                have hih := ih n
                  ((s.setCount n (s.neighbour_count n - 1)).setValid n false) hnv2
                rw [clear_step, if_pos hv, if_pos hlt]
                constructor
                · intro i hvi
                  have h2 := hih.1 i hvi
                  rw [setValid_valid] at h2
                  by_cases hin : i = n
                  · rw [if_pos hin] at h2
                    exact Bool.noConfusion h2
                  · rw [if_neg hin] at h2
                    rw [setCount_valid] at h2
                    exact h2
                · intro i hvi
                  by_cases hin : i = n
                  · subst hin
                    exact Or.inr hih.2.2
                  · rcases hih.2.1 i hvi with ⟨hinv2, hcnt⟩ | hz
                    · rw [setValid_valid, if_neg hin, setCount_valid] at hinv2
                      rw [setValid_count, setCount_count, if_neg hin] at hcnt
                      exact Or.inl ⟨hinv2, hcnt⟩
                    · exact Or.inr hz
              · rw [clear_step, if_pos hv, if_neg hlt]
                constructor
                · intro i hvi
                  rw [setCount_valid] at hvi
                  exact hvi
                · intro i hvi
                  rw [setCount_valid] at hvi
                  have hin : ¬i = n := by
                    intro hh
                    rw [hh, hv] at hvi
                    exact Bool.noConfusion hvi
                  refine Or.inl ⟨hvi, ?_⟩
                  rw [setCount_count, if_neg hin]
            · rw [clear_step, if_neg hv]
              exact ⟨mon_refl s, qrel_refl s⟩
          have hs' : nvalid N (clear_step nbr minn fuel s n) ≤ fuel :=
            le_trans (nvalid_mono N hstep.1) hs
          have hrest := ihl (fun m hm => hns m (List.mem_cons_of_mem n hm))
            (clear_step nbr minn fuel s n) hs'
          exact ⟨mon_trans hstep.1 hrest.1, qrel_trans hstep.2 hrest.2⟩
      have hres := hfold (nbr site) (hnbr site) st (by omega)
      refine ⟨?_, ?_, ?_⟩
      · intro i hvi
        rw [setCount_valid] at hvi
        exact hres.1 i hvi
      · intro i hvi
        rw [setCount_valid] at hvi
        by_cases hi : i = site
        · subst hi
          right
          rw [setCount_count, if_pos rfl]
        · rcases hres.2 i hvi with ⟨ha, hb⟩ | hb
          · refine Or.inl ⟨ha, ?_⟩
            rw [setCount_count, if_neg hi]
            exact hb
          · right
            rw [setCount_count, if_neg hi]
            exact hb
      · rw [setCount_count, if_pos rfl]

/-- After a trimming pass, every invalid site below `num_sites` has
neighbour count `0` (the reason a second pass does nothing). -/
def TrimmedP (N : Nat) (st : TrimState) : Prop :=
  ∀ i, i < N → st.is_valid i = false → st.neighbour_count i = 0

theorem trim_fold_inv (nbr : Nat → List Nat) (minn : Int) (N fuel : Nat)
    (hnbr : ∀ j, ∀ i ∈ nbr j, i < N) (hfuel : N < fuel) :
    ∀ (l : List Nat) (s : TrimState) (i : Nat),
      (l.foldl (fun s i => if s.is_valid i then s
          else clear_neighbors nbr minn fuel i s) s).is_valid i = false →
      (s.is_valid i = false ∧
        (l.foldl (fun s i => if s.is_valid i then s
          else clear_neighbors nbr minn fuel i s) s).neighbour_count i =
          s.neighbour_count i ∧ i ∉ l) ∨
      (l.foldl (fun s i => if s.is_valid i then s
          else clear_neighbors nbr minn fuel i s) s).neighbour_count i = 0 := by
  intro l
  induction l with
  | nil =>
    intro s i h
    exact Or.inl ⟨h, rfl, List.not_mem_nil i⟩
  | cons j l' ihl =>
    intro s i h
    rw [List.foldl_cons] at h ⊢
    by_cases hvj : s.is_valid j = true
    · rw [if_pos hvj] at h ⊢
      rcases ihl s i h with ⟨h1, h2, h3⟩ | h0
      · refine Or.inl ⟨h1, h2, ?_⟩
        intro hmem
        rcases List.mem_cons.mp hmem with he | hm
        · rw [he, hvj] at h1
          exact Bool.noConfusion h1
        · exact h3 hm
      · exact Or.inr h0
    · rw [if_neg hvj] at h ⊢
      have hgood := clear_neighbors_good nbr minn N hnbr fuel j s
        (lt_of_le_of_lt (nvalid_le N s) hfuel)
      rcases ihl (clear_neighbors nbr minn fuel j s) i h with ⟨h1, h2, h3⟩ | h0
      · by_cases hij : i = j
        · subst hij
          right
          rw [h2]
          exact hgood.2.2
        · rcases hgood.2.1 i h1 with ⟨ha, hb⟩ | hb
          · exact Or.inl ⟨ha, h2.trans hb,
              fun hmem => (List.mem_cons.mp hmem).elim (fun he => hij he) h3⟩
          · right
            rw [h2]
            exact hb
      · exact Or.inr h0

theorem trim_edges_trimmed (num_sites : Nat) (nbr : Nat → List Nat) (minn : Int)
    (fuel : Nat) (st : TrimState)
    (hnbr : ∀ j, ∀ i ∈ nbr j, i < num_sites) (hfuel : num_sites < fuel) :
    TrimmedP num_sites (trim_edges num_sites nbr minn fuel st) := by
  intro i hi hinv
  rw [trim_edges] at hinv
  rw [trim_edges]
  rcases trim_fold_inv nbr minn num_sites fuel hnbr hfuel (List.range num_sites) st i hinv
    with ⟨_, _, h3⟩ | h0
  · exact absurd (List.mem_range.mpr hi) h3
  · exact h0

theorem trim_edges_of_trimmed (num_sites : Nat) (nbr : Nat → List Nat) (minn : Int)
    (fuel : Nat) (st : TrimState) (hP : TrimmedP num_sites st) :
    trim_edges num_sites nbr minn fuel st = st := by
  rw [trim_edges]
  have hgen : ∀ l : List Nat, (∀ i ∈ l, i < num_sites) →
      l.foldl (fun s i => if s.is_valid i then s
        else clear_neighbors nbr minn fuel i s) st = st := by
    intro l
    induction l with
    | nil => intro _; rfl
    | cons j l' ihl =>
      intro hl
      rw [List.foldl_cons]
      by_cases hvj : st.is_valid j = true
      · rw [if_pos hvj]
        exact ihl (fun m hm => hl m (List.mem_cons_of_mem j hm))
      · rw [if_neg hvj]
        rw [clear_neighbors_count_zero nbr minn fuel j st
          (hP j (hl j (List.mem_cons_self j l')) (by simpa using hvj))]
        exact ihl (fun m hm => hl m (List.mem_cons_of_mem j hm))
  exact hgen (List.range num_sites) (fun i hi => List.mem_range.mp hi)

/-- **C2.** Trimming is idempotent: for every Foundation state (`is_valid`
plus `neighbour_count`), every neighbour structure whose members lie below
`num_sites`, and sufficient fuel (`num_sites + 1` always is — the C++
recursion is unbounded), running `trim_edges` twice yields the same
`is_valid` array as running it once. -/
theorem trim_edges_idempotent (num_sites : Nat) (nbr : Nat → List Nat) (minn : Int)
    (fuel : Nat) (st : TrimState)
    (hnbr : ∀ j, ∀ i ∈ nbr j, i < num_sites) (hfuel : num_sites < fuel) :
    (trim_edges num_sites nbr minn fuel
        (trim_edges num_sites nbr minn fuel st)).is_valid =
      (trim_edges num_sites nbr minn fuel st).is_valid := by
  rw [trim_edges_of_trimmed num_sites nbr minn fuel _
    (trim_edges_trimmed num_sites nbr minn fuel st hnbr hfuel)]

/-- Witness for C2 at a concrete configuration. -/
theorem trim_edges_idempotent_witness :
    (trim_edges 1 (fun _ => []) 1 2
        (trim_edges 1 (fun _ => []) 1 2 ⟨fun _ => false, fun _ => 0⟩)).is_valid =
      (trim_edges 1 (fun _ => []) 1 2 ⟨fun _ => false, fun _ => 0⟩).is_valid :=
  trim_edges_idempotent 1 (fun _ => []) 1 2 ⟨fun _ => false, fun _ => 0⟩
    (fun _ i hi => absurd hi (List.not_mem_nil i)) (by omega)

end Pybinding
